import Mathlib

/-!
Verification of the file-downloader component in `de.py`.

The Python module is embedded shallowly:

* Python strings are `Str := List Char`; machine-level details (encoding, OS
  calls) are modelled by explicit functions mirroring the CPython
  implementations of `os.path.join`, `os.path.splitext`, `os.path.dirname`,
  `os.path.basename`, `str.strip` and `re.findall(r"filename=(\S+)", ...)`.
* The filesystem, the event bus and the network calls live in an explicit
  state `DLState`; the HTTP stack is an oracle `Str → HttpResult` in `Env`.
* Fallible code returns `Except PyExc _`.  Python's `NameError` (including
  `UnboundLocalError`) is `PyExc.nameError`; the module-level names
  `download_path`, `hass` and `req` used by `do_download` and
  `resolve_filename` are looked up through `Env`, and the environment of the
  module as written (`moduleEnv`) binds none of them, because they are locals
  of `setup` (or of nothing at all) in the source.
-/

/-- Python strings, modelled as lists of characters. -/
abbrev Str := List Char

/-- Conversion from Lean string literals to the `Str` model. -/
def str (x : String) : Str := x.data

/-- Characters Python's `str.strip()` removes (ASCII whitespace). -/
def isPySpace (c : Char) : Bool :=
  c = ' ' || c = '\t' || c = '\n' || c = '\r' || c = '\x0b' || c = '\x0c'

/-- Drop characters satisfying `pred` from the end of a string. -/
def dropEnd (pred : Char → Bool) (x : Str) : Str :=
  (x.reverse.dropWhile pred).reverse

/-- Python `x.strip()` (no argument: strip whitespace from both ends). -/
def pyStrip (x : Str) : Str := dropEnd isPySpace (x.dropWhile isPySpace)

/-- Python `x.strip(cs)`: strip any of the characters `cs` from both ends. -/
def pyStripChars (cs : List Char) (x : Str) : Str :=
  dropEnd (fun c => cs.contains c) (x.dropWhile (fun c => cs.contains c))

/-- Index of the last occurrence of `c` (Python `p.rfind(c)`, `none` for -1). -/
def lastIdxOf? (c : Char) : Str → Option Nat
  | [] => none
  | a :: rest =>
    match lastIdxOf? c rest with
    | some i => some (i + 1)
    | none => if a = c then some 0 else none

/-- Python `os.path.basename(p)`: everything after the last slash. -/
def basename (p : Str) : Str :=
  match lastIdxOf? '/' p with
  | none => p
  | some r => p.drop (r + 1)

/-- Strip trailing slashes (the `head.rstrip('/')` step of `os.path.dirname`). -/
def rstripSlash (p : Str) : Str := (p.reverse.dropWhile (fun c => c = '/')).reverse

/-- Python `os.path.dirname(p)` (posixpath): text before the last slash, with
trailing slashes stripped unless the result would be all slashes. -/
def pyDirname (p : Str) : Str :=
  match lastIdxOf? '/' p with
  | none => []
  | some r =>
    let head := p.take (r + 1)
    if head.all (fun c => c = '/') then head else rstripSlash head

/-- Python `os.path.splitext(p)` (posixpath): split at the last dot that comes
after the last slash (`rfind` returning -1 is the `none` branch), unless the
basename up to that dot consists only of dots (leading-dot files keep no
extension). -/
def splitext (p : Str) : Str × Str :=
  match lastIdxOf? '.' p with
  | none => (p, [])
  | some di =>
    match lastIdxOf? '/' p with
    | none =>
      if (p.take di).all (fun c => c = '.') then (p, [])
      else (p.take di, p.drop di)
    | some si =>
      if si + 1 ≤ di then
        if ((p.drop (si + 1)).take (di - (si + 1))).all (fun c => c = '.') then (p, [])
        else (p.take di, p.drop di)
      else (p, [])

/-- Python `os.path.join(a, b)` (posixpath, two arguments). -/
def os_path_join (a b : Str) : Str :=
  if b.headD ' ' = '/' then b
  else if a = [] ∨ a.getLastD ' ' = '/' then a ++ b
  else a ++ '/' :: b

/-- Whether the string contains two adjacent dots (a `..` substring). -/
def containsDotDot : Str → Bool
  | [] => false
  | [_] => false
  | a :: b :: rest => (a = '.' && b = '.') || containsDotDot (b :: rest)

/-- Split a path into its slash-separated components (Python `p.split('/')`). -/
def splitOnSlash : Str → List Str
  | [] => [[]]
  | c :: rest =>
    if c = '/' then [] :: splitOnSlash rest
    else
      match splitOnSlash rest with
      | [] => [[c]]
      | g :: gs => (c :: g) :: gs

/-- Decimal digits of `n`, least significant first, with explicit fuel. -/
def decDigits : Nat → Nat → List Nat
  | 0, _ => []
  | fuel + 1, n => if n = 0 then [] else n % 10 :: decDigits fuel (n / 10)

/-- The character for a decimal digit. -/
def digitChar (d : Nat) : Char := Char.ofNat (48 + d)

/-- Numeric value of a decimal digit character. -/
def digitVal (c : Char) : Nat := c.toNat - 48

/-- Value of a little-endian decimal digit list. -/
def fromDigits : List Nat → Nat
  | [] => 0
  | d :: r => d + 10 * fromDigits r

/-- Decimal rendering of a natural number, as Python's `str(n)` produces. -/
def natToDec (n : Nat) : Str :=
  if n = 0 then ['0'] else ((decDigits n n).reverse.map digitChar)

/-- Decode a decimal string back to a number (left inverse of `natToDec`). -/
def decodeDec (l : Str) : Nat := fromDigits ((l.map digitVal).reverse)

/-- Python exceptions relevant to `de.py`.  `nameError` carries the name that
failed to resolve; Python's `UnboundLocalError` is a `NameError` subclass and
is represented the same way. -/
inductive PyExc where
  | nameError (var : String)
  | valueError
  | connectionError
  deriving DecidableEq

/-- Outcome of `requests.get`: a connection-level failure, or a response with
a status code. -/
inductive HttpResult where
  | connError
  | resp (status : Nat)
  deriving DecidableEq

/-- A `requests` response object, as far as `resolve_filename` inspects it. -/
structure Resp where
  headers : List (Str × Str)

/-- The global names `de.py` reads.  `download_path` and `hass` are locals of
`setup` and `req` is never bound anywhere, so in the module as written all
three lookups fail; the fields are `Option`s so that the faulty environment
is expressible alongside hypothetical repaired ones. -/
structure Env where
  download_path? : Option Str
  hass? : Option Unit
  req? : Option Resp
  http : Str → HttpResult

/-- The environment the module actually executes in: none of `download_path`,
`hass`, `req` is bound at module level in `de.py`. -/
def moduleEnv (http : Str → HttpResult) : Env :=
  { download_path? := none, hass? := none, req? := none, http := http }

/-- An event fired on the bus. -/
structure Event where
  name : String
  url : Str
  filename : Option Str
  deriving DecidableEq

/-- Observable state: files and directories on disk, events fired on the bus,
and the URLs for which an HTTP request was issued. -/
structure DLState where
  files : List Str
  dirs : List Str
  events : List Event
  httpCalls : List Str
  deriving DecidableEq

def DOMAIN : String := "downloader"

def DOWNLOAD_FAILED_EVENT : String := "download_failed"

def DOWNLOAD_COMPLETED_EVENT : String := "download_completed"

def failedEventName : String := DOMAIN ++ "_" ++ DOWNLOAD_FAILED_EVENT

def completedEventName : String := DOMAIN ++ "_" ++ DOWNLOAD_COMPLETED_EVENT

/-- Characters rejected by the validators ("characters forbidden on common
filesystems"). -/
def forbiddenFsChars : List Char := ['<', '>', ':', '\"', '|', '?', '*', '\\', '~']

/-- Modelled from the spec: `raise_if_invalid_path` is imported from
`homeassistant.util`, which is not part of this repository.  Per spec §4.1/§7
the path validator rejects values containing parent-directory segments,
absolute-path prefixes, or characters forbidden on common filesystems, and
raises a `ValueError`-style validation error. -/
def raise_if_invalid_path (p : Str) : Except PyExc Unit :=
  if containsDotDot p = true ∨ p.headD ' ' = '/' ∨ ∃ c ∈ p, c ∈ forbiddenFsChars then
    .error .valueError
  else .ok ()

/-- Modelled from the spec: `raise_if_invalid_filename` is imported from
`homeassistant.util`, which is not part of this repository.  Per spec §4.1/§7
the filename validator rejects parent-directory segments, absolute-path
prefixes, and forbidden characters (for a filename this includes the path
separator), raising a `ValueError`-style validation error. -/
def raise_if_invalid_filename (f : Str) : Except PyExc Unit :=
  if containsDotDot f = true ∨ '/' ∈ f ∨ f.headD ' ' = '/' ∨ ∃ c ∈ f, c ∈ forbiddenFsChars then
    .error .valueError
  else .ok ()

/-- Key lookup in the response-headers mapping (`"..." in req.headers` and
`req.headers[...]`). -/
def lookupHeader : List (Str × Str) → Str → Option Str
  | [], _ => none
  | kv :: rest, k => if kv.1 = k then some kv.2 else lookupHeader rest k

/-- Scanner for `re.findall(r"filename=(\S+)", s)`: left-to-right,
non-overlapping matches of the literal `filename=` followed by a maximal
non-empty run of non-whitespace, returning the captured runs.  `fuel` bounds
the scan; each step consumes at least one character, so `l.length + 1` fuel
is never exhausted. -/
def faGo : Nat → Str → List Str
  | 0, _ => []
  | fuel + 1, l =>
    if (str "filename=").isPrefixOf l then
      let after := l.drop 9
      let capd := after.takeWhile (fun c => !isPySpace c)
      if capd = [] then
        (match l with
         | [] => []
         | _ :: rest => faGo fuel rest)
      else capd :: faGo fuel (after.drop capd.length)
    else
      match l with
      | [] => []
      | _ :: rest => faGo fuel rest

/-- Python `re.findall(r"filename=(\S+)", l)`. -/
def findallFilename (l : Str) : List Str := faGo (l.length + 1) l

/-- The characters stripped from a content-disposition match: `'\" `. -/
def stripQuoteChars : List Char := ['\'', '\"', ' ']

/-- Python truthiness of an optional string (`None` and `""` are falsy). -/
def pyTruthy : Option Str → Bool
  | none => false
  | some v => !v.isEmpty

/-- `resolve_filename` (de.py lines 94-104).  Mirrors the source line by
line; note that the source reads the global `req`, which is never bound, so
the header branch can only be entered in a hypothetical environment that
binds `req`. -/
def resolve_filename (env : Env) (url : Str) (filename : Option Str) : Except PyExc Str :=
  let step1 : Except PyExc (Option Str) :=
    if pyTruthy filename then .ok filename
    else
      match env.req? with
      | none => .error (.nameError "req")
      | some req =>
        match lookupHeader req.headers (str "content-disposition") with
        | none => .ok filename
        | some hv =>
          match findallFilename hv with
          | [] => .ok filename
          | m :: _ => .ok (some (pyStripChars stripQuoteChars m))
  match step1 with
  | .error e => .error e
  | .ok f1 => if pyTruthy f1 then .ok (f1.getD []) else .ok (pyStrip (basename url))

/-- The collision candidate `f"{path}_{tries}.{ext}"` from
`ensure_unique_filename` (de.py line 126).  Note the literal dot in the
f-string even though `ext` from `os.path.splitext` already starts with one. -/
def cand (path ext : Str) (tries : Nat) : Str :=
  path ++ '_' :: (natToDec tries ++ '.' :: ext)

/-- The `while os.path.isfile(final_path)` loop of `ensure_unique_filename`
(de.py lines 123-126), embedded with explicit fuel; `uniqueGo_not_mem` below
shows the loop provably exits within `files.length + 1` probes, so the fuel
used by `ensure_unique_filename` is never exhausted. -/
def uniqueGo (files : List Str) (path ext : Str) : Nat → Nat → Str → Str
  | 0, _, final_path => final_path
  | fuel + 1, tries, final_path =>
    if final_path ∈ files then
      uniqueGo files path ext fuel (tries + 1) (cand path ext (tries + 1))
    else final_path

/-- `ensure_unique_filename` (de.py lines 120-127). -/
def ensure_unique_filename (files : List Str) (final_path : Str) : Str :=
  let pe := splitext final_path
  uniqueGo files pe.1 pe.2 (files.length + 1) 1 final_path

/-- Directories `os.makedirs(p, exist_ok=True)` guarantees to exist
afterwards: `p` (with trailing slashes dropped) and its ancestors. -/
def ancChain : Nat → Str → List Str
  | 0, _ => []
  | fuel + 1, p =>
    if p = [] ∨ p.all (fun c => c = '/') = true then [] else p :: ancChain fuel (pyDirname p)

/-- `os.makedirs(p, exist_ok=True)`: record `p` and its ancestors as existing
directories; never fails when the directories already exist. -/
def makedirs (p : Str) (st : DLState) : DLState :=
  { st with dirs := ancChain (p.length + 1) (rstripSlash p) ++ st.dirs }

/-- `create_final_path` (de.py lines 106-118). -/
def create_final_path (download_path subdir filename : Str) (overwrite : Bool)
    (st : DLState) : Str × DLState :=
  let fp_st :=
    if subdir ≠ [] then
      let subdir_path := os_path_join download_path subdir
      (os_path_join subdir_path filename, makedirs subdir_path st)
    else
      (os_path_join download_path filename, st)
  if !overwrite then (ensure_unique_filename fp_st.2.files fp_st.1, fp_st.2) else fp_st

/-- The effect of `open(final_path, "wb")`: create the file (truncating any
existing content; the set of existing paths gains `p`). -/
def insertFile (p : Str) (files : List Str) : List Str :=
  if p ∈ files then files else p :: files

/-- `handle_download_failure` (de.py lines 142-151).  The `_LOGGER.exception`
call only logs, so the exception argument has no observable effect; the
removal guard mirrors `if final_path and os.path.isfile(final_path)`; the
final `hass.bus.fire` reads the global `hass`, unbound in the module. -/
def handle_download_failure (env : Env) (url : Str) (filename : Option Str)
    (final_path : Option Str) (_exception : Option PyExc) (st : DLState) :
    Except PyExc Unit × DLState :=
  let st1 :=
    match final_path with
    | some fp => if fp ≠ [] ∧ fp ∈ st.files then { st with files := st.files.erase fp } else st
    | none => st
  match env.hass? with
  | none => (.error (.nameError "hass"), st1)
  | some _ =>
    (.ok (), { st1 with
      events := { name := failedEventName, url := url, filename := filename } :: st1.events })

/-- `download_and_save_file` (de.py lines 129-140).  `requests.get` issues
the network call (recorded in `httpCalls`) and may raise a connection error;
on status 200 the body is streamed into the file; on any other status the
failure handler is called with `filename=None` and the function then returns
normally. -/
def download_and_save_file (env : Env) (url : Str) (final_path : Str) (st : DLState) :
    Except PyExc Unit × DLState :=
  let st1 := { st with httpCalls := url :: st.httpCalls }
  match env.http url with
  | .connError => (.error .connectionError, st1)
  | .resp status =>
    if status = 200 then
      (.ok (), { st1 with files := insertFile final_path st1.files })
    else
      handle_download_failure env url none (some final_path) none st1

/-- Which exceptions `except (requests.exceptions.ConnectionError, ValueError)`
catches (de.py line 91).  `NameError` is not among them. -/
def caught : PyExc → Bool
  | .connectionError => true
  | .valueError => true
  | .nameError _ => false

/-- The `except` clause of `do_download` (de.py lines 91-92).  Evaluating the
call `handle_download_failure(url, filename, final_path, e)` reads the local
`final_path`, which is unbound (`UnboundLocalError`, a `NameError`) whenever
the exception was raised before line 81 assigned it. -/
def exceptClause (env : Env) (url : Str) (filename : Option Str)
    (final_path : Option Str) (e : PyExc) (st : DLState) : Except PyExc Unit × DLState :=
  if caught e then
    match final_path with
    | none => (.error (.nameError "final_path"), st)
    | some fp => handle_download_failure env url filename (some fp) (some e) st
  else (.error e, st)

/-- `do_download` (de.py lines 72-92), together with the success event firing
(lines 86-90).  `download_path` and `hass` are read from the environment;
in `moduleEnv` both lookups raise `NameError`, which the `except` clause does
not catch. -/
def do_download (env : Env) (url : Str) (subdir : Option Str) (filename0 : Option Str)
    (overwrite : Bool) (st : DLState) : Except PyExc Unit × DLState :=
  let subdirS : Str := subdir.getD []
  match raise_if_invalid_path subdirS with
  | .error e => exceptClause env url filename0 none e st
  | .ok _ =>
    match resolve_filename env url filename0 with
    | .error e => exceptClause env url filename0 none e st
    | .ok filename =>
      match raise_if_invalid_filename filename with
      | .error e => exceptClause env url (some filename) none e st
      | .ok _ =>
        match env.download_path? with
        | none => (.error (.nameError "download_path"), st)
        | some download_path =>
          let fp_st := create_final_path download_path subdirS filename overwrite st
          match download_and_save_file env url fp_st.1 fp_st.2 with
          | (.error e, st2) => exceptClause env url (some filename) (some fp_st.1) e st2
          | (.ok _, st2) =>
            match env.hass? with
            | none => (.error (.nameError "hass"), st2)
            | some _ =>
              (.ok (), { st2 with
                events := { name := completedEventName, url := url,
                            filename := some filename } :: st2.events })

/-- Decidable check that `f` lies inside directory `dl`: `dl ++ "/"` is a
literal prefix and the remainder has no `..` path component. -/
def withinDir (dl f : Str) : Bool :=
  decide ((f.take (dl.length + 1) = dl ++ ['/']) ∧
    str ".." ∉ splitOnSlash (f.drop (dl.length + 1)))

/-- Target paths produced by repeating the same allocation `n` times with
`overwrite=false`, each allocated path becoming an existing file before the
next round (newest first). -/
def repeatedPaths (p : Str) : Nat → List Str
  | 0 => []
  | n + 1 =>
    let prev := repeatedPaths p n
    ensure_unique_filename prev p :: prev

/-- Repeating `download_and_save_file` for the same URL and target path `n`
times. -/
def repeatDownload (env : Env) (url p : Str) : Nat → DLState → DLState
  | 0, st => st
  | n + 1, st => repeatDownload env url p n (download_and_save_file env url p st).2

-- Sanity checks of the embedding on concrete values (mirrors CPython output).
example : splitext (str "dl/a.txt") = (str "dl/a", str ".txt") := by decide
example : splitext (str "dl/a_2..txt") = (str "dl/a_2.", str ".txt") := by decide
example : splitext (str "/a/.txt") = (str "/a/.txt", str "") := by decide
example : splitext (str "a.b/c") = (str "a.b/c", str "") := by decide
example : pyDirname (str "dl/sub/f.txt") = str "dl/sub" := by decide
example : pyDirname (str "/a") = str "/" := by decide
example : pyDirname (str "ab") = str "" := by decide
example : basename (str "http://x/test.txt") = str "test.txt" := by decide
example : os_path_join (str "dl") (str "sub") = str "dl/sub" := by decide
example : os_path_join (str "dl/") (str "sub") = str "dl/sub" := by decide
example : os_path_join (str "dl") (str "/abs") = str "/abs" := by decide
example : natToDec 2 = str "2" := by decide
example : natToDec 10 = str "10" := by decide
example : splitOnSlash (str "a/b/c") = [str "a", str "b", str "c"] := by decide
example : splitOnSlash (str "") = [str ""] := by decide
example : containsDotDot (str "a..b") = true := by decide
example : containsDotDot (str "a.b.c") = false := by decide
example : findallFilename (str "attachment; filename=\"x y.txt\"") = [str "\"x"] := by decide
example :
    ensure_unique_filename [str "dl/a.txt"] (str "dl/a.txt") = str "dl/a_2..txt" := by decide

/-! ### Decimal rendering: injectivity and character facts -/

theorem decDigits_lt10 : ∀ fuel n d, d ∈ decDigits fuel n → d < 10 := by
  intro fuel
  induction fuel with
  | zero => intro n d h; simp [decDigits] at h
  | succ fuel ih =>
    intro n d h
    by_cases hn : n = 0
    · simp [decDigits, hn] at h
    · simp [decDigits, hn] at h
      rcases h with h | h
      · omega
      · exact ih _ _ h

theorem fromDigits_decDigits : ∀ fuel n, n ≤ fuel → fromDigits (decDigits fuel n) = n := by
  intro fuel
  induction fuel with
  | zero => intro n h; interval_cases n; rfl
  | succ fuel ih =>
    intro n h
    by_cases hn : n = 0
    · simp [decDigits, hn, fromDigits]
    · have hdiv : n / 10 ≤ fuel := by
        have : n / 10 < n := Nat.div_lt_self (Nat.pos_of_ne_zero hn) (by omega)
        omega
      simp [decDigits, hn, fromDigits, ih _ hdiv]
      omega

theorem digitVal_digitChar (d : Nat) (hd : d < 10) : digitVal (digitChar d) = d := by
  interval_cases d <;> rfl

theorem decodeDec_natToDec : ∀ n, decodeDec (natToDec n) = n := by
  intro n
  unfold natToDec decodeDec
  by_cases hn : n = 0
  · simp [hn]; rfl
  · simp only [hn, if_false]
    rw [List.map_map]
    have hmap : (decDigits n n).reverse.map (digitVal ∘ digitChar) = (decDigits n n).reverse := by
      have : ∀ d ∈ (decDigits n n).reverse, (digitVal ∘ digitChar) d = id d := by
        intro d hd
        simp only [Function.comp_apply, id_eq]
        exact digitVal_digitChar d (decDigits_lt10 n n d (List.mem_reverse.1 hd))
      rw [List.map_congr_left this, List.map_id]
    rw [hmap, List.reverse_reverse]
    exact fromDigits_decDigits n n le_rfl

theorem natToDec_injective : Function.Injective natToDec :=
  Function.LeftInverse.injective decodeDec_natToDec

theorem natToDec_ne_nil (n : Nat) : natToDec n ≠ [] := by
  unfold natToDec
  by_cases hn : n = 0
  · simp [hn]
  · obtain ⟨m, rfl⟩ := Nat.exists_eq_succ_of_ne_zero hn
    simp [decDigits]

theorem natToDec_digit_chars (n : Nat) : ∀ c ∈ natToDec n, c ≠ '/' ∧ c ≠ '_' := by
  intro c hc
  unfold natToDec at hc
  by_cases hn : n = 0
  · simp [hn] at hc
    subst hc; exact ⟨by decide, by decide⟩
  · simp only [hn, if_false, List.mem_map, List.mem_reverse] at hc
    obtain ⟨d, hd, rfl⟩ := hc
    have := decDigits_lt10 n n d hd
    interval_cases d <;> exact ⟨by decide, by decide⟩

/-! ### The collision-avoidance loop: termination and result shape -/

theorem cand_injective (path ext : Str) : Function.Injective (cand path ext) := by
  intro a b h
  unfold cand at h
  have h1 := List.append_cancel_left h
  have h2 : natToDec a ++ '.' :: ext = natToDec b ++ '.' :: ext := by
    injection h1
  exact natToDec_injective (List.append_cancel_right h2)

theorem exists_cand_not_mem (files : List Str) (path ext : Str) (tries : Nat) :
    ∃ j < files.length + 1, cand path ext (tries + 1 + j) ∉ files := by
  by_contra hc
  push_neg at hc
  have hinj : Function.Injective (fun j : Nat => cand path ext (tries + 1 + j)) := by
    intro a b hab
    have := cand_injective path ext hab
    omega
  have hsub : (Finset.range (files.length + 1)).image
      (fun j => cand path ext (tries + 1 + j)) ⊆ files.toFinset := by
    intro x hx
    rcases Finset.mem_image.1 hx with ⟨j, hj, rfl⟩
    exact List.mem_toFinset.2 (hc j (Finset.mem_range.1 hj))
  have hcard := Finset.card_le_card hsub
  rw [Finset.card_image_of_injective _ hinj, Finset.card_range] at hcard
  have := files.toFinset_card_le
  omega

theorem uniqueGo_not_mem (files : List Str) (path ext : Str) :
    ∀ fuel tries cur, (cur ∉ files ∨ ∃ j < fuel, cand path ext (tries + 1 + j) ∉ files) →
      uniqueGo files path ext fuel tries cur ∉ files := by
  intro fuel
  induction fuel with
  | zero =>
    intro tries cur h
    rcases h with h | ⟨j, hj, _⟩
    · simpa [uniqueGo] using h
    · omega
  | succ fuel ih =>
    intro tries cur h
    by_cases hcur : cur ∈ files
    · simp only [uniqueGo, hcur, if_true]
      apply ih
      rcases h with h | ⟨j, hj, hj2⟩
      · contradiction
      · cases j with
        | zero => exact Or.inl hj2
        | succ j' =>
          refine Or.inr ⟨j', by omega, ?_⟩
          have : tries + 1 + (j' + 1) = tries + 1 + 1 + j' := by omega
          rwa [this] at hj2
    · simp [uniqueGo, hcur]

theorem ensure_unique_not_mem (files : List Str) (p : Str) :
    ensure_unique_filename files p ∉ files := by
  unfold ensure_unique_filename
  exact uniqueGo_not_mem files _ _ _ 1 p (Or.inr (exists_cand_not_mem files _ _ 1))

theorem uniqueGo_cases (files : List Str) (path ext : Str) (P : Str → Prop) :
    ∀ fuel tries cur, P cur → (∀ k, tries + 1 ≤ k → P (cand path ext k)) →
      P (uniqueGo files path ext fuel tries cur) := by
  intro fuel
  induction fuel with
  | zero => intro _ cur h _; simpa [uniqueGo] using h
  | succ fuel ih =>
    intro tries cur h hk
    by_cases hcur : cur ∈ files
    · simp only [uniqueGo, hcur, if_true]
      exact ih (tries + 1) _ (hk (tries + 1) le_rfl) (fun k hk' => hk k (by omega))
    · simpa [uniqueGo, hcur] using h

theorem ensure_unique_shape (files : List Str) (p : Str) :
    ensure_unique_filename files p = p ∨
      ∃ k, 2 ≤ k ∧ ensure_unique_filename files p = cand (splitext p).1 (splitext p).2 k := by
  unfold ensure_unique_filename
  exact uniqueGo_cases files _ _
    (fun r => r = p ∨ ∃ k, 2 ≤ k ∧ r = cand (splitext p).1 (splitext p).2 k)
    _ 1 p (Or.inl rfl) (fun k hk => Or.inr ⟨k, hk, rfl⟩)

theorem repeatedPaths_length (p : Str) (n : Nat) : (repeatedPaths p n).length = n := by
  induction n with
  | zero => rfl
  | succ n ih => simp [repeatedPaths, ih]

theorem repeatedPaths_nodup (p : Str) (n : Nat) : (repeatedPaths p n).Nodup := by
  induction n with
  | zero => simp [repeatedPaths]
  | succ n ih =>
    simp only [repeatedPaths, List.nodup_cons]
    exact ⟨ensure_unique_not_mem _ _, ih⟩

/-! ### Last-index, split-on-slash and adjacent-dot lemmas -/

theorem lastIdxOf?_eq_none_iff (c : Char) :
    ∀ p : Str, lastIdxOf? c p = none ↔ ∀ x ∈ p, x ≠ c := by
  intro p
  induction p with
  | nil => simp [lastIdxOf?]
  | cons a rest ih =>
    simp only [lastIdxOf?]
    cases h : lastIdxOf? c rest with
    | some i =>
      simp only [List.mem_cons]
      constructor
      · intro hx; cases hx
      · intro hall
        have hner : ∀ x ∈ rest, x ≠ c := fun x hx => hall x (Or.inr hx)
        rw [ih.mpr hner] at h
        cases h
    | none =>
      by_cases hac : a = c
      · subst hac
        simp
      · simp only [hac, if_false, List.mem_cons]
        constructor
        · rintro - x (rfl | hx)
          · exact hac
          · exact (ih.mp h) x hx
        · intro _; trivial

theorem lastIdxOf?_lt_length (c : Char) :
    ∀ p i, lastIdxOf? c p = some i → i < p.length := by
  intro p
  induction p with
  | nil => intro i h; cases h
  | cons a rest ih =>
    intro i h
    simp only [lastIdxOf?] at h
    cases hr : lastIdxOf? c rest with
    | some j =>
      rw [hr] at h
      cases h
      have := ih j hr
      simp only [List.length_cons]
      omega
    | none =>
      rw [hr] at h
      by_cases hac : a = c
      · simp [hac] at h
        simp [← h]
      · simp [hac] at h

theorem lastIdxOf?_drop (c : Char) :
    ∀ p i, lastIdxOf? c p = some i → ∀ x ∈ p.drop (i + 1), x ≠ c := by
  intro p
  induction p with
  | nil => intro i h; cases h
  | cons a rest ih =>
    intro i h
    simp only [lastIdxOf?] at h
    cases hr : lastIdxOf? c rest with
    | some j =>
      rw [hr] at h
      cases h
      intro x hx
      exact ih j hr x hx
    | none =>
      rw [hr] at h
      by_cases hac : a = c
      · simp [hac] at h
        subst h
        intro x hx
        exact (lastIdxOf?_eq_none_iff c rest).mp hr x hx
      · simp [hac] at h

theorem lastIdxOf?_append (c : Char) (a b : Str) :
    lastIdxOf? c (a ++ b) =
      match lastIdxOf? c b with
      | some i => some (a.length + i)
      | none => lastIdxOf? c a := by
  induction a with
  | nil =>
    cases h : lastIdxOf? c b <;> simp [h, lastIdxOf?]
  | cons x rest ih =>
    simp only [List.cons_append, lastIdxOf?]
    simp only [List.append_eq]
    rw [ih]
    cases h : lastIdxOf? c b with
    | some i =>
      simp only [List.length_cons]
      congr 1
      omega
    | none => rfl

theorem splitOnSlash_ne_nil : ∀ p : Str, splitOnSlash p ≠ [] := by
  intro p
  induction p with
  | nil => simp [splitOnSlash]
  | cons c rest ih =>
    simp only [splitOnSlash]
    by_cases hc : c = '/'
    · simp [hc]
    · simp only [hc, if_false]
      cases h : splitOnSlash rest with
      | nil => simp
      | cons g gs => simp

theorem splitOnSlash_noslash (p : Str) (h : ∀ x ∈ p, x ≠ '/') : splitOnSlash p = [p] := by
  induction p with
  | nil => rfl
  | cons c rest ih =>
    have hc : ¬ c = '/' := h c (List.mem_cons_self c rest)
    have hrest := ih (fun x hx => h x (List.mem_cons_of_mem c hx))
    simp [splitOnSlash, hc, hrest]

theorem getLastD_default_irrel {α : Type} (l : List α) (h : l ≠ []) (d₁ d₂ : α) :
    l.getLastD d₁ = l.getLastD d₂ := by
  rw [List.getLastD_eq_getLast?, List.getLastD_eq_getLast?]
  cases hl : l.getLast? with
  | none => exact absurd (List.getLast?_eq_none_iff.mp hl) h
  | some x => rfl

theorem splitOnSlash_append (a b : Str) (hb : ∀ x ∈ b, x ≠ '/') :
    splitOnSlash (a ++ b) =
      (splitOnSlash a).dropLast ++ [(splitOnSlash a).getLastD [] ++ b] := by
  induction a with
  | nil => simp [splitOnSlash, splitOnSlash_noslash b hb]
  | cons c rest ih =>
    simp only [List.cons_append, splitOnSlash]
    simp only [List.append_eq] at ih ⊢
    by_cases hc : c = '/'
    · simp only [hc, if_true, ih]
      cases h : splitOnSlash rest with
      | nil => exact absurd h (splitOnSlash_ne_nil rest)
      | cons g gs =>
        cases gs with
        | nil => simp
        | cons g2 gs2 =>
          simp [List.dropLast_cons₂, List.getLastD_cons, List.cons_append]
    · simp only [hc, if_false]
      rw [ih]
      cases h : splitOnSlash rest with
      | nil => exact absurd h (splitOnSlash_ne_nil rest)
      | cons g gs =>
        cases gs with
        | nil => simp
        | cons g2 gs2 =>
          simp only [List.dropLast_cons₂, List.getLastD_cons, List.cons_append]

theorem splitOnSlash_head : ∀ (p : Str) (g : Str) (gs : List Str),
    splitOnSlash p = g :: gs → ∃ v, p = g ++ v := by
  intro p
  induction p with
  | nil =>
    intro g gs h
    simp only [splitOnSlash] at h
    cases h
    exact ⟨[], rfl⟩
  | cons c rest ih =>
    intro g gs h
    simp only [splitOnSlash] at h
    by_cases hc : c = '/'
    · rw [if_pos hc] at h
      cases h
      exact ⟨c :: rest, rfl⟩
    · rw [if_neg hc] at h
      cases hr : splitOnSlash rest with
      | nil => exact absurd hr (splitOnSlash_ne_nil rest)
      | cons g' gs' =>
        rw [hr] at h
        obtain ⟨v, hv⟩ := ih g' gs' hr
        cases h
        exact ⟨v, by rw [List.cons_append, ← hv]⟩

theorem mem_splitOnSlash_occurs : ∀ (p : Str) (x : Str),
    x ∈ splitOnSlash p → ∃ u v, p = u ++ x ++ v := by
  intro p
  induction p with
  | nil =>
    intro x hx
    simp only [splitOnSlash, List.mem_singleton] at hx
    exact ⟨[], [], by simp [hx]⟩
  | cons c rest ih =>
    intro x hx
    simp only [splitOnSlash] at hx
    by_cases hc : c = '/'
    · rw [if_pos hc] at hx
      rcases List.mem_cons.1 hx with rfl | hx'
      · exact ⟨[], c :: rest, by simp⟩
      · obtain ⟨u, v, huv⟩ := ih x hx'
        exact ⟨c :: u, v, by simp [huv]⟩
    · rw [if_neg hc] at hx
      cases hr : splitOnSlash rest with
      | nil => exact absurd hr (splitOnSlash_ne_nil rest)
      | cons g gs =>
        rw [hr] at hx
        rcases List.mem_cons.1 hx with rfl | hx'
        · obtain ⟨v, hv⟩ := splitOnSlash_head rest g gs hr
          exact ⟨[], v, by simp [hv]⟩
        · obtain ⟨u, v, huv⟩ := ih x (hr ▸ List.mem_cons_of_mem g hx')
          exact ⟨c :: u, v, by simp [huv]⟩

theorem containsDotDot_cons (c : Char) (l : Str) :
    containsDotDot (c :: l) = ((c = '.' && l.headD ' ' = '.') || containsDotDot l) := by
  cases l with
  | nil => simp [containsDotDot]
  | cons b r => rfl

theorem containsDotDot_append (a b : Str) :
    containsDotDot (a ++ b) =
      (containsDotDot a || containsDotDot b ||
        (a.getLastD ' ' = '.' && b.headD ' ' = '.')) := by
  induction a with
  | nil => simp [containsDotDot]
  | cons c rest ih =>
    rw [List.cons_append, containsDotDot_cons, ih, containsDotDot_cons]
    cases rest with
    | nil =>
      simp only [List.nil_append, containsDotDot, List.getLastD_cons, List.getLastD_nil,
        List.headD_nil]
      cases hc : (c = '.' : Bool) <;> cases hb : (b.headD ' ' = '.' : Bool) <;> simp [hc, hb]
    | cons c2 r2 =>
      simp only [List.cons_append, List.headD_cons, List.getLastD_cons]
      cases hx : (c = '.' : Bool) <;> cases hy : (c2 = '.' : Bool) <;>
        simp [hx, hy, Bool.or_assoc]

theorem containsDotDot_false_left (a b : Str) (h : containsDotDot (a ++ b) = false) :
    containsDotDot a = false := by
  rw [containsDotDot_append] at h
  simp only [Bool.or_eq_false_iff] at h
  exact h.1.1

theorem containsDotDot_false_right (a b : Str) (h : containsDotDot (a ++ b) = false) :
    containsDotDot b = false := by
  rw [containsDotDot_append] at h
  simp only [Bool.or_eq_false_iff] at h
  exact h.1.2

theorem containsDotDot_take (p : Str) (n : Nat) (h : containsDotDot p = false) :
    containsDotDot (p.take n) = false :=
  containsDotDot_false_left _ _ (by rw [List.take_append_drop]; exact h)

theorem not_dotdot_comp (p : Str) (h : containsDotDot p = false) :
    str ".." ∉ splitOnSlash p := by
  intro hmem
  obtain ⟨u, v, hp⟩ := mem_splitOnSlash_occurs _ _ hmem
  rw [hp] at h
  have h1 := containsDotDot_false_left _ _ h
  have h2 := containsDotDot_false_right u (str "..") h1
  exact absurd h2 (by decide)

/-! ### Facts about `splitext` and `pyDirname` -/

theorem splitext_append (p : Str) : (splitext p).1 ++ (splitext p).2 = p := by
  unfold splitext
  split
  · simp
  · split
    · split
      · simp
      · exact List.take_append_drop _ p
    · split
      · split
        · simp
        · exact List.take_append_drop _ p
      · simp

theorem splitext_snd_noslash (p : Str) : ∀ x ∈ (splitext p).2, x ≠ '/' := by
  unfold splitext
  split
  · simp
  · rename_i di hd
    split
    · rename_i hs
      split
      · simp
      · intro x hx
        exact (lastIdxOf?_eq_none_iff '/' p).mp hs x (List.drop_subset _ p hx)
    · rename_i si hs
      split
      · rename_i hle
        split
        · simp
        · intro x hx
          have hsub : p.drop di ⊆ p.drop (si + 1) := List.drop_subset_drop_left p hle
          exact lastIdxOf?_drop '/' p si hs x (hsub hx)
      · simp

theorem rstripSlash_last_ne (a : Str) (ha : a ≠ []) (h : a.getLastD ' ' ≠ '/') :
    rstripSlash a = a := by
  obtain ⟨as, x, rfl⟩ := (List.eq_nil_or_concat a).resolve_left ha
  simp only [List.concat_eq_append] at h ⊢
  rw [List.getLastD_concat] at h
  unfold rstripSlash
  rw [List.reverse_append, List.reverse_singleton, List.singleton_append, List.dropWhile_cons]
  have hx : decide (x = '/') = false := by simp [h]
  rw [hx]
  simp

theorem rstripSlash_concat_slash (a : Str) (ha : a ≠ []) (h : a.getLastD ' ' ≠ '/') :
    rstripSlash (a ++ ['/']) = a := by
  unfold rstripSlash
  rw [List.reverse_append, List.reverse_singleton, List.singleton_append, List.dropWhile_cons]
  have hsl : decide (('/' : Char) = '/') = true := by decide
  rw [hsl]
  simp only [if_true]
  have hrest := rstripSlash_last_ne a ha h
  unfold rstripSlash at hrest
  exact hrest

theorem lastIdxOf?_concat_slashfree (a b : Str) (hb : ∀ x ∈ b, x ≠ '/') :
    lastIdxOf? '/' (a ++ '/' :: b) = some a.length := by
  rw [lastIdxOf?_append]
  have hb0 : lastIdxOf? '/' ('/' :: b) = some 0 := by
    simp only [lastIdxOf?]
    rw [(lastIdxOf?_eq_none_iff '/' b).mpr hb]
    simp
  rw [hb0]
  simp

theorem take_append_one (a : Str) (c : Char) (b : Str) :
    (a ++ c :: b).take (a.length + 1) = a ++ [c] := by
  rw [List.take_append_eq_append_take, List.take_of_length_le (by omega)]
  congr 1
  have h1 : a.length + 1 - a.length = 1 := by omega
  rw [h1]
  rfl

theorem pyDirname_concat (a b : Str) (ha : a ≠ []) (hla : a.getLastD ' ' ≠ '/')
    (hb : ∀ x ∈ b, x ≠ '/') : pyDirname (a ++ '/' :: b) = a := by
  unfold pyDirname
  rw [lastIdxOf?_concat_slashfree a b hb]
  simp only [take_append_one]
  have hall : ((a ++ ['/']).all fun c => decide (c = '/')) = false := by
    obtain ⟨as, x, rfl⟩ := (List.eq_nil_or_concat a).resolve_left ha
    simp only [List.concat_eq_append] at hla ⊢
    rw [List.getLastD_concat] at hla
    rw [List.all_append, List.all_append]
    have hx : ((([x] : Str)).all fun c => decide (c = '/')) = false := by
      simp [hla]
    rw [hx]
    simp
  rw [hall]
  simp only [Bool.false_eq_true, if_false]
  exact rstripSlash_concat_slash a ha hla

theorem pyDirname_insert (stem mid ext : Str) (hext : ∀ x ∈ ext, x ≠ '/')
    (hmid : ∀ x ∈ mid, x ≠ '/') :
    pyDirname (stem ++ mid ++ ext) = pyDirname (stem ++ ext) := by
  have hme : ∀ x ∈ mid ++ ext, x ≠ '/' := by
    intro x hx
    rcases List.mem_append.1 hx with h | h
    · exact hmid x h
    · exact hext x h
  have h1 : lastIdxOf? '/' (stem ++ ext) = lastIdxOf? '/' stem := by
    rw [lastIdxOf?_append, (lastIdxOf?_eq_none_iff '/' ext).mpr hext]
  have h2 : lastIdxOf? '/' (stem ++ mid ++ ext) = lastIdxOf? '/' stem := by
    rw [List.append_assoc, lastIdxOf?_append,
      (lastIdxOf?_eq_none_iff '/' (mid ++ ext)).mpr hme]
  unfold pyDirname
  rw [h1, h2]
  cases hs : lastIdxOf? '/' stem with
  | none => rfl
  | some r =>
    have hr : r < stem.length := lastIdxOf?_lt_length '/' stem r hs
    have ht1 : (stem ++ ext).take (r + 1) = stem.take (r + 1) := by
      rw [List.take_append_of_le_length (by omega)]
    have ht2 : (stem ++ mid ++ ext).take (r + 1) = stem.take (r + 1) := by
      rw [List.append_assoc, List.take_append_of_le_length (by omega)]
    simp only [ht1, ht2]

/-! ### Keeping paths inside the download directory -/

theorem drop_append_one (a : Str) (c : Char) (b : Str) :
    (a ++ c :: b).drop (a.length + 1) = b := by
  rw [List.drop_append_eq_append_drop, List.drop_of_length_le (by omega)]
  have h1 : a.length + 1 - a.length = 1 := by omega
  rw [h1]
  rfl

theorem getLastD_append_cons {α : Type} (a : List α) (c : α) (b : List α) (d : α) :
    (a ++ c :: b).getLastD d = (c :: b).getLastD d := by
  rw [List.getLastD_eq_getLast?, List.getLastD_eq_getLast?, List.getLast?_append]
  cases hlb : (c :: b).getLast? with
  | none =>
    rw [List.getLast?_eq_none_iff] at hlb
    cases hlb
  | some x => rfl

theorem raise_if_invalid_path_ok (p : Str) (h : raise_if_invalid_path p = .ok ()) :
    containsDotDot p = false ∧ p.headD ' ' ≠ '/' := by
  unfold raise_if_invalid_path at h
  split at h
  · cases h
  · rename_i hcond
    push_neg at hcond
    exact ⟨by simpa using hcond.1, hcond.2.1⟩

theorem raise_if_invalid_filename_ok (f : Str) (h : raise_if_invalid_filename f = .ok ()) :
    containsDotDot f = false ∧ '/' ∉ f := by
  unfold raise_if_invalid_filename at h
  split at h
  · cases h
  · rename_i hcond
    push_neg at hcond
    exact ⟨by simpa using hcond.1, hcond.2.1⟩

theorem headD_ne_slash_of_not_mem (f : Str) (h : '/' ∉ f) : f.headD ' ' ≠ '/' := by
  cases f with
  | nil => simp
  | cons c r =>
    simp only [List.headD_cons]
    intro hc
    exact h (hc ▸ List.mem_cons_self c r)

theorem os_path_join_not_abs (a b : Str) (hb : b.headD ' ' ≠ '/') (ha : a ≠ [])
    (hla : a.getLastD ' ' ≠ '/') : os_path_join a b = a ++ '/' :: b := by
  unfold os_path_join
  rw [if_neg hb, if_neg (not_or.mpr ⟨ha, hla⟩)]

theorem os_path_join_ends_slash (a b : Str) (hb : b.headD ' ' ≠ '/')
    (hla : a.getLastD ' ' = '/') : os_path_join a b = a ++ b := by
  unfold os_path_join
  rw [if_neg hb, if_pos (Or.inr hla)]

theorem withinDir_intro (dl r : Str) (h : containsDotDot r = false) :
    withinDir dl (dl ++ '/' :: r) = true := by
  unfold withinDir
  rw [decide_eq_true_eq]
  refine ⟨take_append_one dl '/' r, ?_⟩
  rw [drop_append_one]
  exact not_dotdot_comp r h

theorem withinDir_cand (dl r stem ext : Str) (k : Nat)
    (hsplit : splitext (dl ++ '/' :: r) = (stem, ext))
    (hcdd : containsDotDot r = false) :
    withinDir dl (cand stem ext k) = true := by
  have hse : stem ++ ext = dl ++ '/' :: r := by
    have := splitext_append (dl ++ '/' :: r)
    rw [hsplit] at this
    exact this
  have hexts : ∀ x ∈ ext, x ≠ '/' := by
    have := splitext_snd_noslash (dl ++ '/' :: r)
    rw [hsplit] at this
    exact this
  have hlen : dl.length + 1 ≤ stem.length := by
    by_contra hlt
    push_neg at hlt
    have hext_eq : ext = (dl ++ '/' :: r).drop stem.length := by
      rw [← hse, List.drop_left]
    have hsl : '/' ∈ (dl ++ '/' :: r).drop stem.length := by
      rw [List.drop_append_of_le_length (by omega)]
      exact List.mem_append_right _ (List.mem_cons_self _ _)
    rw [← hext_eq] at hsl
    exact hexts '/' hsl rfl
  have hstem : stem = (dl ++ '/' :: r).take stem.length := by
    rw [← hse, List.take_left]
  have hstem2 : stem = dl ++ '/' :: r.take (stem.length - (dl.length + 1)) := by
    conv_lhs => rw [hstem]
    rw [List.take_append_eq_append_take, List.take_of_length_le (by omega)]
    congr 1
    have h1 : stem.length - dl.length = (stem.length - (dl.length + 1)) + 1 := by omega
    rw [h1]
    rfl
  have hcand : cand stem ext k =
      dl ++ '/' :: (r.take (stem.length - (dl.length + 1)) ++
        ('_' :: (natToDec k ++ '.' :: ext))) := by
    rw [cand]
    conv_lhs => rw [hstem2]
    simp [List.append_assoc]
  rw [hcand]
  unfold withinDir
  rw [decide_eq_true_eq]
  refine ⟨take_append_one _ _ _, ?_⟩
  rw [drop_append_one]
  have hmns : ∀ x ∈ ('_' :: (natToDec k ++ '.' :: ext) : Str), x ≠ '/' := by
    intro x hx
    rcases List.mem_cons.1 hx with rfl | hx2
    · decide
    · rcases List.mem_append.1 hx2 with h3 | h3
      · exact (natToDec_digit_chars k x h3).1
      · rcases List.mem_cons.1 h3 with rfl | h4
        · decide
        · exact hexts x h4
  rw [splitOnSlash_append _ _ hmns]
  intro hmem
  rcases List.mem_append.1 hmem with hdl2 | hlast
  · have h5 : str ".." ∈ splitOnSlash (r.take (stem.length - (dl.length + 1))) :=
      List.dropLast_subset _ hdl2
    exact not_dotdot_comp _ (containsDotDot_take r _ hcdd) h5
  · rw [List.mem_singleton] at hlast
    have hus : '_' ∈ str ".." := by
      rw [hlast]
      exact List.mem_append_right _ (List.mem_cons_self _ _)
    exact absurd hus (by decide)

theorem withinDir_ensure_unique (dl r : Str) (files : List Str)
    (hcdd : containsDotDot r = false) :
    withinDir dl (ensure_unique_filename files (dl ++ '/' :: r)) = true := by
  rcases ensure_unique_shape files (dl ++ '/' :: r) with h | ⟨k, _, h⟩
  · rw [h]
    exact withinDir_intro dl r hcdd
  · rw [h]
    rcases hsp : splitext (dl ++ '/' :: r) with ⟨stem, ext⟩
    exact withinDir_cand dl r stem ext k hsp hcdd

theorem create_final_path_fst (dl sd fn : Str) (ov : Bool) (st : DLState) :
    (create_final_path dl sd fn ov st).1 =
      if ov then (if sd ≠ [] then os_path_join (os_path_join dl sd) fn else os_path_join dl fn)
      else ensure_unique_filename st.files
        (if sd ≠ [] then os_path_join (os_path_join dl sd) fn else os_path_join dl fn) := by
  unfold create_final_path
  by_cases hsd : sd = [] <;> cases ov <;> simp [hsd, makedirs]

theorem create_final_path_snd (dl sd fn : Str) (ov : Bool) (st : DLState) :
    (create_final_path dl sd fn ov st).2 =
      if sd ≠ [] then makedirs (os_path_join dl sd) st else st := by
  unfold create_final_path
  by_cases hsd : sd = [] <;> cases ov <;> simp [hsd]

theorem base_path_shape (dl sd fn : Str)
    (hdl : dl ≠ []) (hdll : dl.getLastD ' ' ≠ '/')
    (hsd : raise_if_invalid_path sd = .ok ())
    (hfn : raise_if_invalid_filename fn = .ok ()) :
    ∃ r₀, (if sd ≠ [] then os_path_join (os_path_join dl sd) fn else os_path_join dl fn) =
        dl ++ '/' :: r₀ ∧ containsDotDot r₀ = false := by
  obtain ⟨cdds, hsdh⟩ := raise_if_invalid_path_ok sd hsd
  obtain ⟨cddf, hfnmem⟩ := raise_if_invalid_filename_ok fn hfn
  have hfnh : fn.headD ' ' ≠ '/' := headD_ne_slash_of_not_mem fn hfnmem
  by_cases hsdnil : sd = []
  · refine ⟨fn, ?_, cddf⟩
    rw [if_neg (by simp [hsdnil])]
    exact os_path_join_not_abs dl fn hfnh hdl hdll
  · rw [if_pos hsdnil, os_path_join_not_abs dl sd hsdh hdl hdll]
    by_cases hlast : sd.getLastD ' ' = '/'
    · refine ⟨sd ++ fn, ?_, ?_⟩
      · rw [os_path_join_ends_slash _ fn hfnh ?hsl]
        case hsl =>
          rw [getLastD_append_cons, List.getLastD_cons,
            getLastD_default_irrel sd hsdnil '/' ' ']
          exact hlast
        simp [List.append_assoc]
      · rw [containsDotDot_append, cdds, cddf, hlast]
        simp
    · refine ⟨sd ++ '/' :: fn, ?_, ?_⟩
      · rw [os_path_join_not_abs _ fn hfnh (by simp) ?hgl]
        case hgl =>
          rw [getLastD_append_cons, List.getLastD_cons,
            getLastD_default_irrel sd hsdnil '/' ' ']
          exact hlast
        simp [List.append_assoc]
      · rw [containsDotDot_append, containsDotDot_cons, cdds, cddf]
        simp

theorem create_final_path_within (dl sd fn : Str) (ov : Bool) (st : DLState)
    (hdl : dl ≠ []) (hdll : dl.getLastD ' ' ≠ '/')
    (hsd : raise_if_invalid_path sd = .ok ())
    (hfn : raise_if_invalid_filename fn = .ok ()) :
    withinDir dl (create_final_path dl sd fn ov st).1 = true := by
  obtain ⟨r₀, hshape, hcdd⟩ := base_path_shape dl sd fn hdl hdll hsd hfn
  rw [create_final_path_fst, hshape]
  cases ov with
  | false =>
    simp only [Bool.false_eq_true, if_false]
    exact withinDir_ensure_unique dl r₀ st.files hcdd
  | true =>
    simp only [if_true]
    exact withinDir_intro dl r₀ hcdd

/-! ### The allocator's parent directory -/

theorem pyDirname_ensure_unique (files : List Str) (p : Str) :
    pyDirname (ensure_unique_filename files p) = pyDirname p := by
  rcases ensure_unique_shape files p with h | ⟨k, _, h⟩
  · rw [h]
  · rw [h]
    rcases hsp : splitext p with ⟨stem, ext⟩
    have hse : stem ++ ext = p := by
      have := splitext_append p
      rw [hsp] at this
      exact this
    have hexts : ∀ x ∈ ext, x ≠ '/' := by
      have := splitext_snd_noslash p
      rw [hsp] at this
      exact this
    have hmid : ∀ x ∈ ('_' :: (natToDec k ++ ['.']) : Str), x ≠ '/' := by
      intro x hx
      rcases List.mem_cons.1 hx with rfl | hx2
      · decide
      · rcases List.mem_append.1 hx2 with h3 | h3
        · exact (natToDec_digit_chars k x h3).1
        · rw [List.mem_singleton] at h3
          subst h3
          decide
    have hc : cand stem ext k = stem ++ ('_' :: (natToDec k ++ ['.'])) ++ ext := by
      rw [cand]
      simp [List.append_assoc]
    show pyDirname (cand stem ext k) = pyDirname p
    rw [hc, pyDirname_insert stem _ ext hexts hmid, hse]

theorem append_cons_all_slash_false (dl : Str) (c : Char) (b : Str) (hdl : dl ≠ [])
    (hdll : dl.getLastD ' ' ≠ '/') :
    ((dl ++ c :: b).all fun x => decide (x = '/')) = false := by
  obtain ⟨as, x, rfl⟩ := (List.eq_nil_or_concat dl).resolve_left hdl
  simp only [List.concat_eq_append] at hdll ⊢
  rw [List.getLastD_concat] at hdll
  rw [List.append_assoc, List.all_append, List.all_append]
  have hx : (([x] : Str).all fun y => decide (y = '/')) = false := by simp [hdll]
  rw [hx]
  simp

theorem mem_makedirs_self (p : Str) (st : DLState) (hp : p ≠ [])
    (hnall : (p.all fun c => decide (c = '/')) = false) (hlast : p.getLastD ' ' ≠ '/') :
    p ∈ (makedirs p st).dirs := by
  unfold makedirs
  rw [rstripSlash_last_ne p hp hlast]
  have hcond : ¬(p = [] ∨ (p.all fun c => decide (c = '/')) = true) := by
    intro hor
    rcases hor with h | h
    · exact hp h
    · rw [h] at hnall
      cases hnall
  have hone : ancChain (p.length + 1) p = p :: ancChain p.length (pyDirname p) := by
    conv_lhs => rw [ancChain]
    rw [if_neg hcond]
  simp only [hone, List.cons_append]
  exact List.mem_cons_self _ _

theorem create_final_path_parent (dl sd fn : Str) (ov : Bool) (st : DLState)
    (hdl : dl ≠ []) (hdll : dl.getLastD ' ' ≠ '/')
    (hsd : raise_if_invalid_path sd = .ok ())
    (hsdlast : sd ≠ [] → sd.getLastD ' ' ≠ '/')
    (hfn : raise_if_invalid_filename fn = .ok ())
    (hdirs : dl ∈ st.dirs) :
    pyDirname (create_final_path dl sd fn ov st).1 ∈ (create_final_path dl sd fn ov st).2.dirs := by
  rw [create_final_path_fst, create_final_path_snd]
  obtain ⟨cdds, hsdh⟩ := raise_if_invalid_path_ok sd hsd
  obtain ⟨cddf, hfnmem⟩ := raise_if_invalid_filename_ok fn hfn
  have hfnsf : ∀ x ∈ fn, x ≠ '/' := fun x hx hxe => hfnmem (hxe ▸ hx)
  by_cases hsdnil : sd = []
  · simp only [hsdnil, ne_eq, not_true_eq_false, if_false]
    have hbase : os_path_join dl fn = dl ++ '/' :: fn :=
      os_path_join_not_abs dl fn (headD_ne_slash_of_not_mem fn hfnmem) hdl hdll
    cases ov with
    | true =>
      simp only [if_true]
      rw [hbase, pyDirname_concat dl fn hdl hdll hfnsf]
      exact hdirs
    | false =>
      simp only [Bool.false_eq_true, if_false]
      rw [pyDirname_ensure_unique, hbase, pyDirname_concat dl fn hdl hdll hfnsf]
      exact hdirs
  · simp only [ne_eq, hsdnil, not_false_eq_true, if_true]
    have hsp : os_path_join dl sd = dl ++ '/' :: sd :=
      os_path_join_not_abs dl sd hsdh hdl hdll
    have hsplast : (os_path_join dl sd).getLastD ' ' ≠ '/' := by
      rw [hsp, getLastD_append_cons, List.getLastD_cons,
        getLastD_default_irrel sd hsdnil '/' ' ']
      exact hsdlast hsdnil
    have hspne : os_path_join dl sd ≠ [] := by
      rw [hsp]
      simp
    have hbase : os_path_join (os_path_join dl sd) fn = os_path_join dl sd ++ '/' :: fn :=
      os_path_join_not_abs _ fn (headD_ne_slash_of_not_mem fn hfnmem) hspne hsplast
    have hdirname : pyDirname (os_path_join (os_path_join dl sd) fn) = os_path_join dl sd := by
      rw [hbase]
      exact pyDirname_concat _ fn hspne hsplast hfnsf
    have hmem : os_path_join dl sd ∈ (makedirs (os_path_join dl sd) st).dirs := by
      apply mem_makedirs_self _ st hspne _ hsplast
      rw [hsp]
      exact append_cons_all_slash_false dl '/' sd hdl hdll
    cases ov with
    | true =>
      simp only [if_true]
      rw [hdirname]
      exact hmem
    | false =>
      simp only [Bool.false_eq_true, if_false]
      rw [pyDirname_ensure_unique, hdirname]
      exact hmem

/-! ### Effects of the request pipeline on the filesystem and state -/

theorem insertFile_mem (p : Str) (files : List Str) (f : Str) (h : f ∈ insertFile p files) :
    f ∈ files ∨ f = p := by
  unfold insertFile at h
  split at h
  · exact Or.inl h
  · rcases List.mem_cons.1 h with rfl | h2
    · exact Or.inr rfl
    · exact Or.inl h2

theorem handle_download_failure_files_eq (env : Env) (url : Str) (filename : Option Str)
    (final_path : Option Str) (exc : Option PyExc) (st : DLState) :
    ((handle_download_failure env url filename final_path exc st).2).files =
      match final_path with
      | some fp => if fp ≠ [] ∧ fp ∈ st.files then st.files.erase fp else st.files
      | none => st.files := by
  unfold handle_download_failure
  cases final_path with
  | none => cases env.hass? <;> rfl
  | some fp =>
    by_cases hc : fp ≠ [] ∧ fp ∈ st.files <;> cases env.hass? <;> simp [hc]

theorem handle_download_failure_files (env : Env) (url : Str) (filename : Option Str)
    (final_path : Option Str) (exc : Option PyExc) (st : DLState) :
    ∀ f ∈ ((handle_download_failure env url filename final_path exc st).2).files,
      f ∈ st.files := by
  intro f hf
  rw [handle_download_failure_files_eq] at hf
  cases final_path with
  | none => exact hf
  | some fp =>
    simp only at hf
    split at hf
    · exact List.mem_of_mem_erase hf
    · exact hf

theorem download_and_save_file_files (env : Env) (url fp : Str) (st : DLState) :
    ∀ f ∈ ((download_and_save_file env url fp st).2).files, f ∈ st.files ∨ f = fp := by
  unfold download_and_save_file
  cases hh : env.http url with
  | connError =>
    intro f hf
    exact Or.inl hf
  | resp status =>
    dsimp only
    by_cases hs : status = 200
    · rw [if_pos hs]
      intro f hf
      exact insertFile_mem fp st.files f hf
    · rw [if_neg hs]
      intro f hf
      exact Or.inl (handle_download_failure_files env url none (some fp) none
        { files := st.files, dirs := st.dirs, events := st.events,
          httpCalls := url :: st.httpCalls } f hf)

theorem exceptClause_files (env : Env) (url : Str) (filename : Option Str)
    (final_path : Option Str) (e : PyExc) (st : DLState) :
    ∀ f ∈ ((exceptClause env url filename final_path e st).2).files, f ∈ st.files := by
  unfold exceptClause
  by_cases hc : caught e = true
  · rw [if_pos hc]
    cases final_path with
    | none =>
      intro f hf
      exact hf
    | some fp =>
      intro f hf
      exact handle_download_failure_files env url filename (some fp) _ st f hf
  · rw [if_neg hc]
    intro f hf
    exact hf

theorem create_final_path_files (dl sd fn : Str) (ov : Bool) (st : DLState) :
    (create_final_path dl sd fn ov st).2.files = st.files := by
  rw [create_final_path_snd]
  split <;> simp [makedirs]

theorem create_final_path_not_occupied (dl sd fn : Str) (st : DLState) :
    (create_final_path dl sd fn false st).1 ∉ (create_final_path dl sd fn false st).2.files := by
  rw [create_final_path_files, create_final_path_fst]
  simp only [Bool.false_eq_true, if_false]
  exact ensure_unique_not_mem st.files _

theorem raise_if_invalid_path_error (p : Str) (e : PyExc)
    (h : raise_if_invalid_path p = .error e) : e = .valueError := by
  unfold raise_if_invalid_path at h
  split at h
  · injection h with h1
    exact h1.symm
  · cases h

theorem raise_if_invalid_filename_error (f : Str) (e : PyExc)
    (h : raise_if_invalid_filename f = .error e) : e = .valueError := by
  unfold raise_if_invalid_filename at h
  split at h
  · injection h with h1
    exact h1.symm
  · cases h

theorem resolve_filename_moduleEnv (http : Str → HttpResult) (url : Str) (fn : Option Str) :
    resolve_filename (moduleEnv http) url fn =
      if pyTruthy fn then .ok (fn.getD []) else .error (.nameError "req") := by
  unfold resolve_filename moduleEnv
  by_cases h : pyTruthy fn = true
  · simp [h]
  · simp [h]

theorem do_download_files_within (env : Env) (url : Str) (subdir filename0 : Option Str)
    (overwrite : Bool) (st : DLState) (dl : Str)
    (hdp : env.download_path? = some dl)
    (hdl : dl ≠ []) (hdll : dl.getLastD ' ' ≠ '/') :
    ∀ f ∈ ((do_download env url subdir filename0 overwrite st).2).files,
      f ∈ st.files ∨ withinDir dl f = true := by
  unfold do_download
  dsimp only
  cases hv : raise_if_invalid_path (subdir.getD []) with
  | error e =>
    intro f hf
    exact Or.inl (exceptClause_files env url filename0 none e st f hf)
  | ok u =>
    dsimp only
    cases hr : resolve_filename env url filename0 with
    | error e =>
      intro f hf
      exact Or.inl (exceptClause_files env url filename0 none e st f hf)
    | ok fname =>
      dsimp only
      cases hfv : raise_if_invalid_filename fname with
      | error e =>
        intro f hf
        exact Or.inl (exceptClause_files env url (some fname) none e st f hf)
      | ok u2 =>
        dsimp only
        rw [hdp]
        dsimp only
        have hvu : raise_if_invalid_path (subdir.getD []) = .ok () := by
          cases u
          exact hv
        have hfu : raise_if_invalid_filename fname = .ok () := by
          cases u2
          exact hfv
        have hwithin := create_final_path_within dl (subdir.getD []) fname overwrite st
          hdl hdll hvu hfu
        have hfiles := create_final_path_files dl (subdir.getD []) fname overwrite st
        rcases hdw : download_and_save_file env url
            (create_final_path dl (subdir.getD []) fname overwrite st).1
            (create_final_path dl (subdir.getD []) fname overwrite st).2 with ⟨res, st2⟩
        have hd2 := download_and_save_file_files env url
          (create_final_path dl (subdir.getD []) fname overwrite st).1
          (create_final_path dl (subdir.getD []) fname overwrite st).2
        rw [hdw] at hd2
        have hstep : ∀ f ∈ st2.files, f ∈ st.files ∨ withinDir dl f = true := by
          intro f hf
          rcases hd2 f hf with h | h
          · rw [hfiles] at h
            exact Or.inl h
          · rw [h]
            exact Or.inr hwithin
        cases res with
        | error e =>
          dsimp only
          intro f hf
          exact hstep f (exceptClause_files env url (some fname)
            (some (create_final_path dl (subdir.getD []) fname overwrite st).1) e st2 f hf)
        | ok u3 =>
          dsimp only
          cases hh : env.hass? with
          | none =>
            intro f hf
            exact hstep f hf
          | some u4 =>
            dsimp only
            intro f hf
            exact hstep f hf

/-! ### Repeating requests with overwrite -/

theorem download_and_save_file_files_200 (env : Env) (url p : Str) (st : DLState)
    (h200 : env.http url = .resp 200) :
    ((download_and_save_file env url p st).2).files = insertFile p st.files := by
  unfold download_and_save_file
  rw [h200]
  simp

theorem repeatDownload_files_stable (env : Env) (url p : Str)
    (h200 : env.http url = .resp 200) :
    ∀ (n : Nat) (st : DLState), p ∈ st.files →
      (repeatDownload env url p n st).files = st.files := by
  intro n
  induction n with
  | zero => intro st _; rfl
  | succ n ih =>
    intro st hp
    unfold repeatDownload
    rw [ih _ ?hmem]
    case hmem =>
      rw [download_and_save_file_files_200 env url p st h200]
      unfold insertFile
      rw [if_pos hp]
      exact hp
    rw [download_and_save_file_files_200 env url p st h200]
    unfold insertFile
    rw [if_pos hp]

theorem repeatDownload_files_fresh (env : Env) (url p : Str)
    (h200 : env.http url = .resp 200) (n : Nat) (st : DLState)
    (hp : p ∉ st.files) (hn : 1 ≤ n) :
    (repeatDownload env url p n st).files = p :: st.files := by
  cases n with
  | zero => omega
  | succ n =>
    unfold repeatDownload
    have hfirst : ((download_and_save_file env url p st).2).files = p :: st.files := by
      rw [download_and_save_file_files_200 env url p st h200]
      unfold insertFile
      rw [if_neg hp]
    rw [repeatDownload_files_stable env url p h200 n _ ?hmem, hfirst]
    case hmem =>
      rw [hfirst]
      exact List.mem_cons_self _ _

theorem create_final_path_overwrite_st_irrel (d s f : Str) (st st' : DLState) :
    (create_final_path d s f true st).1 = (create_final_path d s f true st').1 := by
  rw [create_final_path_fst, create_final_path_fst]
  simp

/-! ### Concrete environments and states for evaluation -/

/-- An HTTP stack whose every response is 200 OK. -/
def http200 : Str → HttpResult := fun _ => .resp 200

/-- An HTTP stack whose every response is 404. -/
def http404 : Str → HttpResult := fun _ => .resp 404

/-- An HTTP stack for which every request raises a connection error. -/
def httpConnErr : Str → HttpResult := fun _ => .connError

/-- An empty disk, empty bus and no network calls yet. -/
def emptyState : DLState := { files := [], dirs := [], events := [], httpCalls := [] }

/-- A state in which only the configured download directory `dl` exists. -/
def stateWithDl : DLState := { files := [], dirs := [str "dl"], events := [], httpCalls := [] }

/-- A hypothetical repaired environment in which all three globals are bound
(`download_path = "dl"`, `hass` present, `req` a response without headers),
used to exhibit behaviour that the unbound names otherwise mask. -/
def patchedEnv (http : Str → HttpResult) : Env :=
  { download_path? := some (str "dl"), hass? := some (), req? := some { headers := [] },
    http := http }

/-! ### Claim theorems -/

/-- C10: in the module as written, `do_download` reads `download_path` and
`hass`, which are locals of `setup` and not module globals, and
`resolve_filename` reads `req` before any HTTP request exists, so every
invocation of `do_download` — whatever its arguments, the prior state or the
behaviour of the network — terminates with an unhandled `NameError` (for
requests without an explicit filename: on `req`; with one: on
`download_path`, or on the unbound local `final_path` inside the `except`
clause after a validation error) and leaves the state untouched: no file,
no directory, no event and no HTTP request is ever produced. -/
theorem c10_unbound_names_name_error (http : Str → HttpResult) (url : Str)
    (subdir filename0 : Option Str) (overwrite : Bool) (st : DLState) :
    (do_download (moduleEnv http) url subdir filename0 overwrite st).2 = st ∧
    ∃ v, (do_download (moduleEnv http) url subdir filename0 overwrite st).1 =
      Except.error (PyExc.nameError v) := by
  unfold do_download
  dsimp only
  cases hv : raise_if_invalid_path (subdir.getD []) with
  | error e =>
    have he := raise_if_invalid_path_error _ _ hv
    subst he
    exact ⟨rfl, ⟨"final_path", rfl⟩⟩
  | ok u =>
    dsimp only
    rw [resolve_filename_moduleEnv]
    by_cases ht : pyTruthy filename0 = true
    · rw [if_pos ht]
      dsimp only
      cases hf : raise_if_invalid_filename (filename0.getD []) with
      | error e =>
        have he := raise_if_invalid_filename_error _ _ hf
        subst he
        exact ⟨rfl, ⟨"final_path", rfl⟩⟩
      | ok u2 =>
        dsimp only
        exact ⟨rfl, ⟨"download_path", rfl⟩⟩
    · rw [if_neg ht]
      dsimp only
      exact ⟨rfl, ⟨"req", rfl⟩⟩

/-- C1: evaluation of the code at a failing input.  First conjunct: in the
module's real environment a request that should succeed (URL reachable,
explicit filename, server would answer 200) dies with `NameError` on
`download_path` before any HTTP request or event — so `download_completed`
is not emitted on success and `download_failed` is not emitted either.
Second conjunct: even with the globals bound, a non-200 response makes
`download_and_save_file` call the failure handler and then return normally,
after which `do_download` also fires `download_completed` — both events fire
for one failed request, contradicting the claimed iff. -/
theorem c1_no_event_ever_fires :
    do_download (moduleEnv http200) (str "http://x/a.txt") none (some (str "a.txt")) false
        emptyState = (.error (.nameError "download_path"), emptyState) ∧
    ((do_download (patchedEnv http404) (str "http://x/a.txt") none (some (str "a.txt")) false
        emptyState).2).events.map (fun e => e.name) =
      [completedEventName, failedEventName] :=
  ⟨rfl, rfl⟩

/-- C2: evaluation of the code at a failing input.  A request with the
traversal subdirectory `../x` is rejected by the validator before any
network call or filesystem mutation (the final state equals the initial
one, with no HTTP call recorded), but the failure is *not* surfaced as a
`download_failed` event: the `except` clause evaluates the unbound local
`final_path` and the thread dies with an uncaught `UnboundLocalError`
(a `NameError`), leaving the event bus empty. -/
theorem c2_validation_failure_without_event :
    do_download (moduleEnv http200) (str "http://x/a.txt") (some (str "../x"))
      (some (str "a.txt")) false emptyState =
        (.error (.nameError "final_path"), emptyState) := rfl

/-- C4: evaluation of the code at a failing input.  Any request without an
explicit non-empty filename makes `resolve_filename` evaluate
`req.headers` — but no HTTP response exists at that point and the global
`req` is unbound, so the content-disposition and URL-basename fallbacks are
dead code and the call raises `NameError` instead of returning a name
(first conjunct).  Only the explicit-filename branch of the claimed
precedence works (second conjunct). -/
theorem c4_resolve_filename_name_error :
    resolve_filename (moduleEnv http200) (str "http://x/test.txt") none =
      .error (.nameError "req") ∧
    resolve_filename (moduleEnv http200) (str "http://x/test.txt") (some (str "explicit.txt")) =
      .ok (str "explicit.txt") :=
  ⟨rfl, rfl⟩

/-- C6: evaluation of the code at a failing input.  First conjunct: a value
error during processing (forbidden character `<` in the filename) is caught
by the `except` clause, but evaluating the handler call reads the unbound
local `final_path`, so neither cleanup nor a `download_failed` event happens
— the thread dies with a `NameError` and the state is untouched.  Second
conjunct: a connection-level failure can never even occur, because the
`NameError` on `download_path` aborts every request before `requests.get`
(no HTTP call is recorded). -/
theorem c6_failure_cleanup_never_runs :
    do_download (moduleEnv http200) (str "http://x/a.txt") none (some (str "a<b")) false
        emptyState = (.error (.nameError "final_path"), emptyState) ∧
    do_download (moduleEnv httpConnErr) (str "http://x/a.txt") none (some (str "a.txt")) false
        emptyState = (.error (.nameError "download_path"), emptyState) :=
  ⟨rfl, rfl⟩

/-- C3 counterexample: with `dl/a.txt` already on disk, the allocator's first
candidate is `dl/a_2..txt` (the f-string adds a dot although the extension
from `os.path.splitext` already starts with one), not the claimed
`dl/a_2.txt`. -/
theorem c3_counterexample :
    ensure_unique_filename [str "dl/a.txt"] (str "dl/a.txt") ≠ str "dl/a_2.txt" ∧
    ensure_unique_filename [str "dl/a.txt"] (str "dl/a.txt") = str "dl/a_2..txt" :=
  ⟨by decide, by decide⟩

/-- C3 amended: when overwrite is false the allocator inserts `_k` (k = 2, 3,
…) before the extension but duplicates the extension's dot, producing
`name_2..ext`, `name_3..ext`, …; repeating the same allocation n times still
yields n pairwise-distinct paths, never reusing an existing one (second part
shows the first three names produced for `a.txt`). -/
theorem c3_amended_unique_names :
    (∀ (p : Str) (n : Nat), (repeatedPaths p n).length = n ∧ (repeatedPaths p n).Nodup) ∧
    repeatedPaths (str "a.txt") 3 = [str "a_3..txt", str "a_2..txt", str "a.txt"] := by
  constructor
  · intro p n
    exact ⟨repeatedPaths_length p n, repeatedPaths_nodup p n⟩
  · decide

/-- C9 counterexample: on a request without an explicit filename the resolver
does not return a string at all — it raises `NameError` on the unbound `req`
(here for a URL whose basename would in any case be empty). -/
theorem c9_counterexample :
    resolve_filename (moduleEnv http200) (str "http://x/") none =
      .error (.nameError "req") := rfl

/-- C9 amended: the resolver returns a (necessarily non-empty) string only
when an explicit non-empty filename is supplied, and returns it unchanged;
in every other case — no filename, or an empty one — it raises `NameError`
on the unbound `req`, so the content-disposition and URL-basename fallbacks
never produce a value. -/
theorem c9_amended_resolver_behaviour (http : Str → HttpResult) (url : Str)
    (fn : Option Str) :
    resolve_filename (moduleEnv http) url fn =
      (match fn with
       | none => .error (.nameError "req")
       | some v => if v = [] then .error (.nameError "req") else .ok v) := by
  rw [resolve_filename_moduleEnv]
  cases fn with
  | none => rfl
  | some v =>
    by_cases hv : v = []
    · simp [pyTruthy, hv]
    · simp [pyTruthy, hv]

/-- C5: no accepted request ever produces a file outside the configured
download directory.  For any environment whose `download_path` is the
directory `dl` (non-empty, no trailing slash), every file present after
`do_download` either existed before the request or lies within `dl`:
`dl ++ "/"` is a literal prefix of its path and the remainder contains no
`..` component.  The validators run before `create_final_path` performs the
only filesystem mutations, and the only file ever written is the validated
allocator result. -/
theorem c5_no_file_outside_download_dir (env : Env) (url : Str)
    (subdir filename0 : Option Str) (overwrite : Bool) (st : DLState) (dl : Str)
    (hdp : env.download_path? = some dl) (hdl : dl ≠ [])
    (hdll : dl.getLastD ' ' ≠ '/') :
    ((do_download env url subdir filename0 overwrite st).2).files.all
      (fun f => decide (f ∈ st.files) || withinDir dl f) = true := by
  rw [List.all_eq_true]
  intro f hf
  rcases do_download_files_within env url subdir filename0 overwrite st dl hdp hdl hdll
      f hf with h | h
  · rw [Bool.or_eq_true, decide_eq_true_eq]
    exact Or.inl h
  · rw [Bool.or_eq_true]
    exact Or.inr h

/-- Witness for C5 at a concrete request against a repaired environment
(the hypotheses of the theorem discharged by computation). -/
theorem c5_no_file_outside_download_dir_witness :
    (patchedEnv http200).download_path? = some (str "dl") ∧
    (str "dl" : Str) ≠ [] ∧ (str "dl").getLastD ' ' ≠ '/' ∧
    ((do_download (patchedEnv http200) (str "http://x/a.txt") (some (str "sub"))
        (some (str "a.txt")) false emptyState).2).files.all
      (fun f => decide (f ∈ emptyState.files) || withinDir (str "dl") f) = true :=
  ⟨rfl, by decide, by decide,
    c5_no_file_outside_download_dir (patchedEnv http200) (str "http://x/a.txt")
      (some (str "sub")) (some (str "a.txt")) false emptyState (str "dl")
      rfl (by decide) (by decide)⟩

/-- C7: for every call to the path allocator with validated inputs (and a
subdirectory not ending in a separator), the returned path's parent
directory exists afterwards — the subdirectory having been created by
`makedirs(..., exist_ok=True)` when given, the configured directory itself
otherwise — and when overwrite is false no file occupies the returned path
at the moment of allocation. -/
theorem c7_allocator_guarantee (dl sd fn : Str) (ov : Bool) (st : DLState)
    (hdl : dl ≠ []) (hdll : dl.getLastD ' ' ≠ '/')
    (hsd : raise_if_invalid_path sd = .ok ())
    (hsdlast : sd ≠ [] → sd.getLastD ' ' ≠ '/')
    (hfn : raise_if_invalid_filename fn = .ok ())
    (hdirs : dl ∈ st.dirs) :
    pyDirname (create_final_path dl sd fn ov st).1 ∈
      (create_final_path dl sd fn ov st).2.dirs ∧
    (ov = false →
      (create_final_path dl sd fn ov st).1 ∉ (create_final_path dl sd fn ov st).2.files) := by
  refine ⟨create_final_path_parent dl sd fn ov st hdl hdll hsd hsdlast hfn hdirs, ?_⟩
  intro hov
  subst hov
  exact create_final_path_not_occupied dl sd fn st

/-- Witness for C7 at a concrete allocation. -/
theorem c7_allocator_guarantee_witness :
    raise_if_invalid_path (str "sub") = .ok () ∧
    raise_if_invalid_filename (str "a.txt") = .ok () ∧
    str "dl" ∈ stateWithDl.dirs ∧
    pyDirname (create_final_path (str "dl") (str "sub") (str "a.txt") false stateWithDl).1 ∈
      (create_final_path (str "dl") (str "sub") (str "a.txt") false stateWithDl).2.dirs ∧
    (create_final_path (str "dl") (str "sub") (str "a.txt") false stateWithDl).1 ∉
      (create_final_path (str "dl") (str "sub") (str "a.txt") false stateWithDl).2.files := by
  refine ⟨rfl, rfl, by decide, ?_, ?_⟩
  · exact (c7_allocator_guarantee (str "dl") (str "sub") (str "a.txt") false stateWithDl
      (by decide) (by decide) rfl (fun _ => by decide) rfl (by decide)).1
  · exact (c7_allocator_guarantee (str "dl") (str "sub") (str "a.txt") false stateWithDl
      (by decide) (by decide) rfl (fun _ => by decide) rfl (by decide)).2 rfl

/-- C8 counterexample: repeating the same overwrite=true request twice leaves
zero files on disk, not exactly one — the module's unbound names abort every
request before the write, even against a healthy 200 server. -/
theorem c8_counterexample :
    ((do_download (moduleEnv http200) (str "http://x/a.txt") none (some (str "a.txt")) true
        ((do_download (moduleEnv http200) (str "http://x/a.txt") none (some (str "a.txt")) true
          emptyState).2)).2).files = [] := rfl

/-- C8 amended: the allocator with overwrite=true returns the same target
path on every repetition regardless of the filesystem state (renaming is
skipped), and repeatedly running the fetch-and-persist step against a
200 server writes that one path each time, leaving exactly one file; the
full request pipeline, however, never reaches these functions (C8
counterexample). -/
theorem c8_amended_overwrite_single_path :
    (∀ (d s f : Str) (st st' : DLState),
      (create_final_path d s f true st).1 = (create_final_path d s f true st').1) ∧
    (∀ (env : Env) (url p : Str) (n : Nat) (st : DLState),
      env.http url = .resp 200 → p ∉ st.files → 1 ≤ n →
        (repeatDownload env url p n st).files = p :: st.files ∧
        ((repeatDownload env url p n st).files.count p = 1)) := by
  constructor
  · exact create_final_path_overwrite_st_irrel
  · intro env url p n st h200 hp hn
    have heq := repeatDownload_files_fresh env url p h200 n st hp hn
    refine ⟨heq, ?_⟩
    rw [heq, List.count_cons_self, List.count_eq_zero.mpr hp]

/-- Witness for C8 at a concrete repetition. -/
theorem c8_amended_overwrite_single_path_witness :
    (patchedEnv http200).http (str "http://x/a.txt") = .resp 200 ∧
    str "dl/a.txt" ∉ emptyState.files ∧ 1 ≤ 3 ∧
    (repeatDownload (patchedEnv http200) (str "http://x/a.txt") (str "dl/a.txt") 3
      emptyState).files = [str "dl/a.txt"] ∧
    (repeatDownload (patchedEnv http200) (str "http://x/a.txt") (str "dl/a.txt") 3
      emptyState).files.count (str "dl/a.txt") = 1 := by
  have h := (c8_amended_overwrite_single_path).2 (patchedEnv http200) (str "http://x/a.txt")
    (str "dl/a.txt") 3 emptyState rfl (by decide) (by decide)
  exact ⟨rfl, by decide, by decide, h.1, h.2⟩
